import Mathlib

set_option linter.unusedSectionVars false

/-!
Shallow embedding of `src/gi/knowledge/combinatorial.py` (class
`CombinatorialKnowledge`): a hypothesis-based combinatorial learner with
per-hypothesis failure tracking, tolerance-based pruning, recursive child
learners and exhaustive prediction.

Modelling conventions:
* Row values are a type parameter `V`; for the concrete scenarios we use
  `V := Option Int`, with `none` playing the role of Python's `None` row value.
* A relation function (`RelFn`) is opaque, with the two-mode contract of the
  source: `eval` is comparison mode, where the result `none` models a raised
  exception and `some b` a returned boolean; `infer` is prediction mode, where
  `none` models either a raised exception or a returned Python `None` (the two
  are treated identically by `predict`, which skips `None` results).
* Out-of-range indexing (`row[i]` for a stale index, `row[target_index]` for a
  bad target) raises in Python; the spec (§7b) declares configuration misuse
  undefined.  The embedding totalises those accesses to "evaluation fails".
  No theorem below depends on this undefined-behaviour corner.
* The recursion of `on` / `predict` through child learners is expressed with
  an explicit fuel argument (`onFuel`, `predictFuel`); the canonical entry
  points `Knowledge.on` / `Knowledge.predict` supply fuel `maxDepth.toNat + 1`,
  and the development proves (see the depth-bound theorem) that on every
  reachable learner any larger fuel computes the same result, i.e. the real
  recursion depth is bounded by `max_depth` exactly as in the source.
-/

namespace CombKnow

/-- Dual-mode relation function, the opaque callable of the source
(`fn(lhs_values, rhs)` / `fn(lhs_values)`). -/
structure RelFn (V : Type) where
  eval : List V → V → Option Bool
  infer : List V → Option V

/-- RHS descriptor of a hypothesis key: `("target", None)`, `("feature", i)`,
or `("constant", c)` in the source. -/
inductive RhsDesc (V : Type) where
  | target : RhsDesc V
  | feature : Nat → RhsDesc V
  | const : V → RhsDesc V
deriving DecidableEq

/-- Hypothesis key `(fn_index, lhs_subset, (rhs_type, rhs_value))`. -/
structure HypKey (V : Type) where
  fnIndex : Nat
  lhs : List Nat
  rhs : RhsDesc V
deriving DecidableEq

/-- Constructor arguments of `CombinatorialKnowledge`, immutable after
construction. -/
structure Config (V : Type) where
  functions : List (RelFn V)
  constants : List V
  minLhs : Nat
  maxLhs : Nat
  tolerance : Int
  maxDepth : Int
  parentKey : Option (HypKey V)

/-- Learner state: configuration plus the insertion-ordered hypotheses map
`hyp_key → {"fail": n, "child": optional child learner}`. -/
inductive Knowledge (V : Type) : Type where
  | mk (cfg : Config V) (hyps : List (HypKey V × Nat × Option (Knowledge V))) :
      Knowledge V

def Knowledge.cfg {V : Type} : Knowledge V → Config V
  | .mk c _ => c

def Knowledge.hyps {V : Type} :
    Knowledge V → List (HypKey V × Nat × Option (Knowledge V))
  | .mk _ h => h

def Knowledge.maxDepth {V : Type} (k : Knowledge V) : Int := k.cfg.maxDepth

def Knowledge.parentKey {V : Type} (k : Knowledge V) : Option (HypKey V) :=
  k.cfg.parentKey

variable {V : Type} [DecidableEq V]

/-- Python dict lookup `self.hypotheses.get(key)` on the association list. -/
def getHyp (key : HypKey V) :
    List (HypKey V × Nat × Option (Knowledge V)) → Option (Nat × Option (Knowledge V))
  | [] => none
  | (k, e) :: rest => if k = key then some e else getHyp key rest

/-- Python dict assignment `d[key] = e`: replace in place if present, else
append. -/
def putHyp (key : HypKey V) (e : Nat × Option (Knowledge V)) :
    List (HypKey V × Nat × Option (Knowledge V)) →
      List (HypKey V × Nat × Option (Knowledge V))
  | [] => [(key, e)]
  | (k, e') :: rest =>
    if k = key then (key, e) :: rest else (k, e') :: putHyp key e rest

/-- `tuple(row[i] for i in lhs_subset)`; `none` when some index is out of
range (undefined-behaviour corner, see header). -/
def getVals (row : List V) : List Nat → Option (List V)
  | [] => some []
  | i :: rest =>
    match row.get? i, getVals row rest with
    | some v, some vs => some (v :: vs)
    | _, _ => none

/-- `self.functions[fn_index](vals, rhsv)` in comparison mode with the
source's `try/except`: a raised exception (`none`) counts as `False`. -/
def evalFn (fns : List (RelFn V)) (fi : Nat) (vals : List V) (rhsv : V) : Bool :=
  match fns.get? fi with
  | some f => (f.eval vals rhsv).getD false
  | none => false

/-- RHS value of a feature/constant descriptor: `row[rhs_val]` resp. the
literal.  `target` is handled separately (training only). -/
def featConstValue (row : List V) : RhsDesc V → Option V
  | .target => none
  | .feature i => row.get? i
  | .const c => some c

/-- Comparison-mode evaluation of a feature/constant hypothesis against a row,
as performed identically in `on`, `_update_children` and `predict`. -/
def passesFC (fns : List (RelFn V)) (row : List V) (key : HypKey V) : Bool :=
  match getVals row key.lhs, featConstValue row key.rhs with
  | some vals, some r => evalFn fns key.fnIndex vals r
  | _, _ => false

/-- Training-time comparison evaluation of any hypothesis (lines 101-118 of
the source): target descriptors compare against `row[target_index]`. -/
def hypPasses (fns : List (RelFn V)) (row : List V) (t : Nat) (key : HypKey V) :
    Bool :=
  match key.rhs with
  | .target =>
    match getVals row key.lhs, row.get? t with
    | some vals, some y => evalFn fns key.fnIndex vals y
    | _, _ => false
  | _ => passesFC fns row key

/-- `itertools.combinations` on a list: all subsequences of the given length,
in the source order (lexicographic for an ascending input). -/
def combinations : Nat → List Nat → List (List Nat)
  | 0, _ => [[]]
  | _ + 1, [] => []
  | k + 1, x :: xs =>
    (combinations k xs).map (fun l => x :: l) ++ combinations (k + 1) xs

/-- `_rhs_candidates`: target, then every non-target column, then every
configured constant. -/
def rhsCandidates (row : List V) (t : Nat) (cs : List V) : List (RhsDesc V) :=
  RhsDesc.target ::
    (((List.range row.length).filter (fun i => i ≠ t)).map RhsDesc.feature ++
      cs.map RhsDesc.const)

/-- Keys produced by `_enumerate_hypotheses` for one row: sizes
`range(min_lhs, max_lhs + 1)`, ascending combinations of column indices,
function indices, RHS candidates. -/
def enumKeys (fns : List (RelFn V)) (cs : List V) (mn mx : Nat) (row : List V)
    (t : Nat) : List (HypKey V) :=
  (List.range' mn (mx + 1 - mn)).flatMap fun sz =>
    (combinations sz (List.range row.length)).flatMap fun lhs =>
      (List.range fns.length).flatMap fun fi =>
        (rhsCandidates row t cs).map fun r => ⟨fi, lhs, r⟩

/-- First loop of `on` (lines 97-128): every enumerated hypothesis that passes
is carried into `new_hypotheses`, reusing the tracked state if present and
otherwise starting at `{"fail": 0, "child": None}`. -/
def newHyps (cfg : Config V) (hyps : List (HypKey V × Nat × Option (Knowledge V)))
    (row : List V) (t : Nat) : List (HypKey V × Nat × Option (Knowledge V)) :=
  (enumKeys cfg.functions cfg.constants cfg.minLhs cfg.maxLhs row t).foldl
    (fun acc key =>
      if hypPasses cfg.functions row t key then
        putHyp key ((getHyp key hyps).getD (0, none)) acc
      else acc) []

/-- Second loop of `on` (lines 130-136): every old hypothesis not renewed has
its failure count incremented and is kept iff the count stays `<= tolerance`. -/
def pruneFold (tol : Int) (hyps acc : List (HypKey V × Nat × Option (Knowledge V))) :
    List (HypKey V × Nat × Option (Knowledge V)) :=
  hyps.foldl
    (fun acc' e =>
      if (getHyp e.1 acc').isSome then acc'
      else if ((e.2.1 + 1 : Nat) : Int) ≤ tol then
        acc' ++ [(e.1, e.2.1 + 1, e.2.2)]
      else acc') acc

/-- The hypotheses-map update of `on` (lines 95-138): passing keys are kept or
inserted fresh with `fail = 0`; every previously tracked key that did not pass
has `fail` incremented and is retained iff the new count is `<= tolerance`. -/
def trainCore (k : Knowledge V) (row : List V) (t : Nat) : Knowledge V :=
  match k with
  | .mk cfg hyps =>
    .mk cfg (pruneFold cfg.tolerance hyps (newHyps cfg hyps row t))

/-- Child constructed on first success in `_update_children`: same
configuration with `max_depth - 1`, `parent_key = key`, empty hypotheses. -/
def freshChild (cfg : Config V) (key : HypKey V) : Knowledge V :=
  .mk { cfg with maxDepth := cfg.maxDepth - 1, parentKey := some key } []

/-- Fuel-indexed `on` (train): the hypotheses-map update followed by
`_update_children` (skip if `max_depth <= 0`; skip target keys and the key
equal to `parent_key`; re-evaluate, and on success create the child if absent
and feed it the same example). -/
def onFuel : Nat → Knowledge V → List V → Nat → Knowledge V
  | 0, k, _, _ => k
  | fuel + 1, k, row, t =>
    match trainCore k row t with
    | .mk cfg hyps =>
      if cfg.maxDepth ≤ 0 then .mk cfg hyps
      else
        .mk cfg (hyps.map fun e =>
          if e.1.rhs = RhsDesc.target then e
          else if some e.1 = cfg.parentKey then e
          else if passesFC cfg.functions row e.1 then
            (e.1, e.2.1, some (onFuel fuel ((e.2.2).getD (freshChild cfg e.1)) row t))
          else e)

/-- `CombinatorialKnowledge.on` for a training example: the fuel
`maxDepth.toNat + 1` is exactly sufficient on reachable learners (see the
depth-bound theorem below). -/
def Knowledge.on (k : Knowledge V) (row : List V) (t : Nat) : Knowledge V :=
  onFuel (k.maxDepth.toNat + 1) k row t

/-- A freshly constructed learner: empty hypotheses map. -/
def freshK (cfg : Config V) : Knowledge V := .mk cfg []

/-- A sequence of training calls (`row`, `target_index`) on a learner. -/
def trainList (k : Knowledge V) (ctxs : List (List V × Nat)) : Knowledge V :=
  ctxs.foldl (fun k' c => k'.on c.1 c.2) k

/-- Prediction-mode output of one target-descriptor hypothesis:
`yhat = fn(lhs_values)`, appended unless it is `None` / raised. -/
def inferOut (fns : List (RelFn V)) (row : List V) (key : HypKey V) : List V :=
  match getVals row key.lhs, fns.get? key.fnIndex with
  | some vals, some f =>
    match f.infer vals with
    | some y => [y]
    | none => []
  | _, _ => []

/-- Fuel-indexed `predict` (lines 194-231): target hypotheses contribute their
prediction-mode value; feature/constant hypotheses re-test the relation and,
on success, recurse into their child if one exists. -/
def predictFuel : Nat → Knowledge V → List V → List V
  | 0, _, _ => []
  | fuel + 1, .mk cfg hyps, row =>
    hyps.flatMap fun e =>
      match e.1.rhs with
      | RhsDesc.target => inferOut cfg.functions row e.1
      | _ =>
        if passesFC cfg.functions row e.1 then
          match e.2.2 with
          | some child => predictFuel fuel child row
          | none => []
        else []

/-- `CombinatorialKnowledge.predict`. -/
def Knowledge.predict (k : Knowledge V) (row : List V) : List V :=
  predictFuel (k.maxDepth.toNat + 1) k row

/-- State-threading translation of `predict`: the learner state is passed
through every loop iteration and child call exactly as the Python object
graph is, so that read-only-ness of `predict` is a provable statement rather
than a typing convention. -/
def predictM : Nat → Knowledge V → List V → Knowledge V × List V
  | 0, k, _ => (k, [])
  | fuel + 1, .mk cfg hyps, row =>
    let r := hyps.foldl
      (fun acc e =>
        match e.1.rhs with
        | RhsDesc.target => (acc.1 ++ [e], acc.2 ++ inferOut cfg.functions row e.1)
        | _ =>
          if passesFC cfg.functions row e.1 then
            match e.2.2 with
            | some child =>
              (acc.1 ++ [(e.1, e.2.1, some (predictM fuel child row).1)],
               acc.2 ++ (predictM fuel child row).2)
            | none => (acc.1 ++ [e], acc.2)
          else (acc.1 ++ [e], acc.2))
      ([], [])
    (.mk cfg r.1, r.2)

/-- No hypothesis of the learner owns a child. -/
def childFree (k : Knowledge V) : Bool :=
  k.hyps.all fun e => e.2.2.isNone

/-! ### Concrete relation functions (from `src/tests/test_function_knowledge.py`)
over `V := Option Int`, where `none` is Python's `None`. -/

/-- `sum(lhs)`: raises (`none`) when some value is `None`. -/
def sumOpt : List (Option Int) → Option Int
  | [] => some 0
  | v :: rest =>
    match v, sumOpt rest with
    | some x, some s => some (x + s)
    | _, _ => none

/-- `equals_sum(lhs, rhs)`: comparison mode `sum(lhs) == rhs`, prediction mode
`sum(lhs)`. -/
def equalsSum : RelFn (Option Int) where
  eval := fun lhs rhs => (sumOpt lhs).map fun s => decide (rhs = some s)
  infer := fun lhs => (sumOpt lhs).map some

/-- `equals_constant(lhs, rhs)`: comparison mode `lhs[0] == rhs` (raises on an
empty tuple), prediction mode returns `None`. -/
def equalsConstant : RelFn (Option Int) where
  eval := fun lhs rhs =>
    match lhs with
    | v :: _ => some (decide (v = rhs))
    | [] => none
  infer := fun _ => none

/-- Scenario A configuration: one `equals_sum` function,
`min_lhs = max_lhs = 2`, remaining knobs at their constructor defaults. -/
def cfgA : Config (Option Int) :=
  { functions := [equalsSum], constants := [], minLhs := 2, maxLhs := 2,
    tolerance := 5, maxDepth := 1, parentKey := none }

/-- Scenario A learner after the three training rows. -/
def learnerA : Knowledge (Option Int) :=
  trainList (freshK cfgA)
    [([some 3, some 5, some 8], 2), ([some 2, some 4, some 6], 2),
     ([some 10, some (-1), some 9], 2)]

/-- Scenario C configuration: one `equals_constant` function, constant `42`,
`min_lhs = max_lhs = 1`, remaining knobs at their constructor defaults. -/
def cfgC : Config (Option Int) :=
  { functions := [equalsConstant], constants := [some 42], minLhs := 1,
    maxLhs := 1, tolerance := 5, maxDepth := 1, parentKey := none }

/-- Scenario C learner after training on `[42, 0]` with `target_index = 1`. -/
def learnerC : Knowledge (Option Int) :=
  trainList (freshK cfgC) [([some 42, some 0], 1)]

/-- The constant-RHS key `(0, (0,), ("constant", 42))` of scenario C. -/
def keyC42 : HypKey (Option Int) := ⟨0, [0], .const (some 42)⟩

/-! ### Characterisation of the enumeration (`combinations`, `enumKeys`) -/

theorem mem_combinations {k : Nat} {xs l : List Nat} :
    l ∈ combinations k xs ↔ l.Sublist xs ∧ l.length = k := by
  induction xs generalizing k l with
  | nil =>
    cases k with
    | zero =>
      simp only [combinations, List.mem_singleton]
      constructor
      · rintro rfl; exact ⟨List.Sublist.refl _, rfl⟩
      · rintro ⟨h, hl⟩; exact List.length_eq_zero.mp hl
    | succ k =>
      simp only [combinations, List.not_mem_nil, false_iff, not_and]
      intro h hl
      have := List.sublist_nil.mp h
      subst this
      simp at hl
  | cons x xs ih =>
    cases k with
    | zero =>
      simp only [combinations, List.mem_singleton]
      constructor
      · rintro rfl; exact ⟨List.nil_sublist _, rfl⟩
      · rintro ⟨h, hl⟩; exact List.length_eq_zero.mp hl
    | succ k =>
      simp only [combinations, List.mem_append, List.mem_map]
      constructor
      · rintro (⟨l', hl', rfl⟩ | h)
        · obtain ⟨hs, hlen⟩ := ih.mp hl'
          exact ⟨List.Sublist.cons₂ x hs, by simp [hlen]⟩
        · obtain ⟨hs, hlen⟩ := ih.mp h
          exact ⟨hs.cons x, hlen⟩
      · rintro ⟨hs, hlen⟩
        cases hs with
        | cons _ h => exact Or.inr (ih.mpr ⟨h, hlen⟩)
        | cons₂ _ h =>
          exact Or.inl ⟨_, ih.mpr ⟨h, by simpa using hlen⟩, rfl⟩

theorem sublist_range_iff {l : List Nat} {n : Nat} :
    l.Sublist (List.range n) ↔ l.Pairwise (· < ·) ∧ ∀ i ∈ l, i < n := by
  constructor
  · intro h
    refine ⟨List.Pairwise.sublist h (List.pairwise_lt_range n), fun i hi => ?_⟩
    exact List.mem_range.mp (h.subset hi)
  · rintro ⟨hp, hb⟩
    induction n generalizing l with
    | zero =>
      have : l = [] := by
        cases l with
        | nil => rfl
        | cons a l => exact absurd (hb a (by simp)) (by omega)
      simp [this]
    | succ n ih =>
      by_cases hn : n ∈ l
      · obtain ⟨s, u, rfl⟩ := List.append_of_mem hn
        have hu : u = [] := by
          rw [List.pairwise_append] at hp
          cases u with
          | nil => rfl
          | cons b u =>
            have hb' : b < n + 1 := hb b (by simp)
            have : n < b := (List.pairwise_cons.mp hp.2.1).1 b (by simp)
            omega
        subst hu
        rw [List.range_succ]
        refine List.Sublist.append (ih ?_ ?_) (List.Sublist.refl _)
        · exact (List.pairwise_append.mp hp).1
        · intro i hi
          have := (List.pairwise_append.mp hp).2.2 i hi n (by simp)
          omega
      · have hb' : ∀ i ∈ l, i < n := by
          intro i hi
          have := hb i hi
          rcases Nat.lt_succ_iff_lt_or_eq.mp this with h | rfl
          · exact h
          · exact absurd hi hn
        exact (ih hp hb').trans (List.range_sublist.mpr (Nat.le_succ n))

theorem mem_rhsCandidates {row : List V} {t : Nat} {cs : List V}
    {r : RhsDesc V} :
    r ∈ rhsCandidates row t cs ↔
      r = RhsDesc.target ∨
      (∃ i, i < row.length ∧ i ≠ t ∧ r = RhsDesc.feature i) ∨
      (∃ c, c ∈ cs ∧ r = RhsDesc.const c) := by
  simp only [rhsCandidates, List.mem_cons, List.mem_append, List.mem_map,
    List.mem_filter, List.mem_range, decide_eq_true_eq]
  constructor
  · rintro (rfl | ⟨i, ⟨hi, hit⟩, rfl⟩ | ⟨c, hc, rfl⟩)
    · exact Or.inl rfl
    · exact Or.inr (Or.inl ⟨i, hi, hit, rfl⟩)
    · exact Or.inr (Or.inr ⟨c, hc, rfl⟩)
  · rintro (rfl | ⟨i, hi, hit, rfl⟩ | ⟨c, hc, rfl⟩)
    · exact Or.inl rfl
    · exact Or.inr (Or.inl ⟨i, ⟨hi, hit⟩, rfl⟩)
    · exact Or.inr (Or.inr ⟨c, hc, rfl⟩)

/-- C2.  Hypothesis enumeration is exactly the full candidate space: a key is
enumerated for a row of length `n` and target index `t` iff its function index
is a position of the function list, its LHS is an ascending list of distinct
column indices `< n` (the target column not excluded) of size between
`min_lhs` and `max_lhs`, and its RHS descriptor is the target, a feature
column `≠ t`, or a configured constant; in particular a feature RHS index is
never the target index. -/
theorem c2_enumeration_is_full_space (fns : List (RelFn V)) (cs : List V)
    (mn mx : Nat) (row : List V) (t : Nat) (key : HypKey V) :
    key ∈ enumKeys fns cs mn mx row t ↔
      (key.fnIndex < fns.length ∧
       mn ≤ key.lhs.length ∧ key.lhs.length ≤ mx ∧
       key.lhs.Pairwise (· < ·) ∧ (∀ i ∈ key.lhs, i < row.length) ∧
       (key.rhs = RhsDesc.target ∨
        (∃ i, i < row.length ∧ i ≠ t ∧ key.rhs = RhsDesc.feature i) ∨
        (∃ c, c ∈ cs ∧ key.rhs = RhsDesc.const c))) := by
  simp only [enumKeys, List.mem_flatMap, List.mem_map, List.mem_range'_1,
    List.mem_range]
  constructor
  · rintro ⟨sz, hsz, lhs, hlhs, fi, hfi, r, hr, rfl⟩
    obtain ⟨hsub, hlen⟩ := mem_combinations.mp hlhs
    obtain ⟨hpw, hbd⟩ := sublist_range_iff.mp hsub
    subst hlen
    exact ⟨hfi, (by omega : mn ≤ lhs.length), (by omega : lhs.length ≤ mx),
      hpw, hbd, mem_rhsCandidates.mp hr⟩
  · rintro ⟨hfi, hmn, hmx, hpw, hbd, hr⟩
    exact ⟨key.lhs.length, ⟨hmn, by omega⟩, key.lhs,
      mem_combinations.mpr ⟨sublist_range_iff.mpr ⟨hpw, hbd⟩, rfl⟩,
      key.fnIndex, hfi, key.rhs, mem_rhsCandidates.mpr hr, rfl⟩

/-- C3.  End-to-end scenario A: with the single function `equals_sum` and
`min_lhs = max_lhs = 2`, after training on `[3,5,8]`, `[2,4,6]`, `[10,-1,9]`
(target index 2), predicting on `[7,1,None]` includes the value 8. -/
theorem c3_scenario_A :
    (some 8 : Option Int) ∈ learnerA.predict [some 7, some 1, none] := by
  decide

/-- C8 (failing evaluation).  Scenario C with the repository test's own
relation function (`equals_constant`, whose prediction mode returns `None`)
and constant list `[42]`: after training on `[42, 0]` with target index 1 the
constant-RHS hypothesis `(0, (0,), ("constant", 42))` is retained and holds on
the training row — the claim's premise — yet `predict([42, None])` returns the
empty list, so 42 is not among the predictions, contradicting the claim and
the repository's test `test_constants_are_valid_rhs_candidates`. -/
theorem c8_scenario_C_code_divergence :
    (getHyp keyC42 learnerC.hyps).isSome = true ∧
    passesFC cfgC.functions [some 42, some 0] keyC42 = true ∧
    learnerC.predict [some 42, none] = [] ∧
    (some 42 : Option Int) ∉ learnerC.predict [some 42, none] := by
  refine ⟨by decide, by decide, by decide, by decide⟩

/-! ### Association-list lemmas for the hypotheses map -/

theorem getHyp_append_some {key : HypKey V}
    {a : List (HypKey V × Nat × Option (Knowledge V))} {v}
    (h : getHyp key a = some v) (b : List (HypKey V × Nat × Option (Knowledge V))) :
    getHyp key (a ++ b) = some v := by
  induction a with
  | nil => simp [getHyp] at h
  | cons e a ih =>
    obtain ⟨k, w⟩ := e
    by_cases hk : k = key
    · simp only [getHyp, if_pos hk] at h
      simp only [List.cons_append, getHyp, if_pos hk]
      exact h
    · simp only [getHyp, if_neg hk] at h
      simp only [List.cons_append, getHyp, if_neg hk]
      exact ih h

theorem getHyp_append_none {key : HypKey V}
    {a : List (HypKey V × Nat × Option (Knowledge V))}
    (h : getHyp key a = none) (b : List (HypKey V × Nat × Option (Knowledge V))) :
    getHyp key (a ++ b) = getHyp key b := by
  induction a with
  | nil => simp
  | cons e a ih =>
    obtain ⟨k, w⟩ := e
    by_cases hk : k = key
    · simp [getHyp, hk] at h
    · simp only [getHyp, if_neg hk] at h
      simp only [List.cons_append, getHyp, if_neg hk]
      exact ih h

theorem getHyp_putHyp_self (key : HypKey V) (e : Nat × Option (Knowledge V))
    (l : List (HypKey V × Nat × Option (Knowledge V))) :
    getHyp key (putHyp key e l) = some e := by
  induction l with
  | nil => simp [putHyp, getHyp]
  | cons x l ih =>
    obtain ⟨k, w⟩ := x
    by_cases hk : k = key
    · simp [putHyp, getHyp, hk]
    · simp only [putHyp, if_neg hk, getHyp, ih]

theorem getHyp_putHyp_ne {key k' : HypKey V} (hne : k' ≠ key)
    (e : Nat × Option (Knowledge V))
    (l : List (HypKey V × Nat × Option (Knowledge V))) :
    getHyp key (putHyp k' e l) = getHyp key l := by
  induction l with
  | nil => simp [putHyp, getHyp, hne]
  | cons x l ih =>
    obtain ⟨k, w⟩ := x
    by_cases hk : k = k'
    · subst hk
      simp [putHyp, getHyp, hne]
    · simp only [putHyp, if_neg hk, getHyp]
      by_cases hkey : k = key
      · simp [hkey]
      · simp [hkey, ih]

/-- Lookup after the passing-keys loop: a key is present in the accumulator
iff it was already there or is a passing enumerated key, in which case it is
bound to its renewal value. -/
theorem getHyp_newFold (passes : HypKey V → Bool)
    (v₀ : HypKey V → Nat × Option (Knowledge V)) (keys : List (HypKey V))
    (acc : List (HypKey V × Nat × Option (Knowledge V))) (key : HypKey V) :
    getHyp key (keys.foldl
        (fun acc' k => if passes k then putHyp k (v₀ k) acc' else acc') acc) =
      if key ∈ keys ∧ passes key = true then some (v₀ key)
      else getHyp key acc := by
  induction keys generalizing acc with
  | nil => simp
  | cons x keys ih =>
    simp only [List.foldl_cons]
    rw [ih]
    by_cases hx : x = key
    · subst hx
      by_cases hp : passes x = true
      · by_cases hmem : x ∈ keys
        · simp [hmem, hp]
        · simp [hmem, hp, getHyp_putHyp_self]
      · simp [hp]
    · by_cases hp : passes x = true
      · simp [hp, getHyp_putHyp_ne hx, List.mem_cons, Ne.symm hx]
      · simp [hp, List.mem_cons, Ne.symm hx]

theorem getHyp_newHyps (cfg : Config V)
    (hyps : List (HypKey V × Nat × Option (Knowledge V))) (row : List V)
    (t : Nat) (key : HypKey V) :
    getHyp key (newHyps cfg hyps row t) =
      if key ∈ enumKeys cfg.functions cfg.constants cfg.minLhs cfg.maxLhs row t
         ∧ hypPasses cfg.functions row t key = true
      then some ((getHyp key hyps).getD (0, none))
      else none :=
  getHyp_newFold (hypPasses cfg.functions row t)
    (fun k => (getHyp k hyps).getD (0, none)) _ [] key

theorem pruneFold_nil (tol : Int)
    (acc : List (HypKey V × Nat × Option (Knowledge V))) :
    pruneFold tol [] acc = acc := rfl

theorem pruneFold_cons (tol : Int) (e : HypKey V × Nat × Option (Knowledge V))
    (hyps acc : List (HypKey V × Nat × Option (Knowledge V))) :
    pruneFold tol (e :: hyps) acc =
      pruneFold tol hyps
        (if (getHyp e.1 acc).isSome then acc
         else if ((e.2.1 + 1 : Nat) : Int) ≤ tol then
           acc ++ [(e.1, e.2.1 + 1, e.2.2)]
         else acc) := rfl

/-- Keys already present before the pruning loop keep their binding: the loop
only appends entries. -/
theorem getHyp_pruneFold_some (tol : Int)
    (hyps : List (HypKey V × Nat × Option (Knowledge V)))
    {acc : List (HypKey V × Nat × Option (Knowledge V))} {key : HypKey V} {v}
    (h : getHyp key acc = some v) :
    getHyp key (pruneFold tol hyps acc) = some v := by
  induction hyps generalizing acc with
  | nil => exact h
  | cons e hyps ih =>
    rw [pruneFold_cons]
    apply ih
    split
    · exact h
    · split
      · exact getHyp_append_some h _
      · exact h

/-- The pruning loop leaves lookups of keys foreign to the old map unchanged. -/
theorem getHyp_pruneFold_absent (tol : Int)
    {hyps : List (HypKey V × Nat × Option (Knowledge V))} {key : HypKey V}
    (habs : ∀ e ∈ hyps, e.1 ≠ key)
    (acc : List (HypKey V × Nat × Option (Knowledge V))) :
    getHyp key (pruneFold tol hyps acc) = getHyp key acc := by
  induction hyps generalizing acc with
  | nil => rfl
  | cons e hyps ih =>
    rw [pruneFold_cons]
    have hne := habs e (List.mem_cons_self _ _)
    rw [ih (fun e' he' => habs e' (List.mem_cons_of_mem _ he'))]
    split
    · rfl
    · split
      · cases hget : getHyp key acc with
        | some v =>
          rw [getHyp_append_some hget _]
        | none =>
          rw [getHyp_append_none hget]
          simp [getHyp, hne, hget]
      · rfl

/-- Lookup after the pruning loop, for a key not renewed by the passing loop:
if tracked with count `c`, it survives with `c + 1` exactly when
`c + 1 <= tolerance`, its child untouched; otherwise it stays absent. -/
theorem getHyp_pruneFold_none (tol : Int)
    {hyps : List (HypKey V × Nat × Option (Knowledge V))} {key : HypKey V}
    (hnd : (hyps.map (fun e => e.1)).Nodup)
    {acc : List (HypKey V × Nat × Option (Knowledge V))}
    (h : getHyp key acc = none) :
    getHyp key (pruneFold tol hyps acc) =
      (getHyp key hyps).bind
        (fun v => if ((v.1 + 1 : Nat) : Int) ≤ tol then some (v.1 + 1, v.2)
                  else none) := by
  induction hyps generalizing acc with
  | nil => simpa [getHyp] using h
  | cons e hyps ih =>
    obtain ⟨k, c, ch⟩ := e
    simp only [List.map_cons, List.nodup_cons] at hnd
    obtain ⟨hk_not, hnd'⟩ := hnd
    rw [pruneFold_cons]
    by_cases hk : k = key
    · subst hk
      have habs : ∀ e' ∈ hyps, e'.1 ≠ k := by
        intro e' he' heq
        exact hk_not (heq ▸ List.mem_map_of_mem (fun e => e.1) he')
      simp only [h, Option.isSome_none, Bool.false_eq_true, if_false]
      by_cases htol : ((c + 1 : Nat) : Int) ≤ tol
      · rw [if_pos htol, getHyp_pruneFold_absent tol habs,
          getHyp_append_none h]
        have htol' : ((c : Int) + 1) ≤ tol := by push_cast at htol; exact htol
        simp [getHyp, htol']
      · rw [if_neg htol, getHyp_pruneFold_absent tol habs]
        have htol' : ¬((c : Int) + 1) ≤ tol := by push_cast at htol; exact htol
        simp [getHyp, htol', h]
    · have hstep : getHyp key
          (if (getHyp (k, c, ch).1 acc).isSome then acc
           else if (((k, c, ch).2.1 + 1 : Nat) : Int) ≤ tol then
             acc ++ [((k, c, ch).1, (k, c, ch).2.1 + 1, (k, c, ch).2.2)]
           else acc) = none := by
        split
        · exact h
        · split
          · rw [getHyp_append_none h]
            simp [getHyp, hk]
          · exact h
      rw [ih hnd' hstep]
      simp [getHyp, hk]

theorem getHyp_cons (key : HypKey V) (x : HypKey V × Nat × Option (Knowledge V))
    (rest : List (HypKey V × Nat × Option (Knowledge V))) :
    getHyp key (x :: rest) = if x.1 = key then some x.2 else getHyp key rest := by
  obtain ⟨k, w⟩ := x
  rfl

/-- Lookup in the result of the whole hypotheses-map update of `on`. -/
theorem getHyp_trainCore (cfg : Config V)
    (hyps : List (HypKey V × Nat × Option (Knowledge V))) (row : List V)
    (t : Nat) (key : HypKey V) (hnd : (hyps.map (fun e => e.1)).Nodup) :
    getHyp key (trainCore (.mk cfg hyps) row t).hyps =
      if key ∈ enumKeys cfg.functions cfg.constants cfg.minLhs cfg.maxLhs row t
         ∧ hypPasses cfg.functions row t key = true
      then some ((getHyp key hyps).getD (0, none))
      else (getHyp key hyps).bind
        (fun v => if ((v.1 + 1 : Nat) : Int) ≤ cfg.tolerance then
            some (v.1 + 1, v.2)
          else none) := by
  have hhyps : (trainCore (.mk cfg hyps) row t).hyps =
      pruneFold cfg.tolerance hyps (newHyps cfg hyps row t) := rfl
  rw [hhyps]
  by_cases hpass : key ∈ enumKeys cfg.functions cfg.constants cfg.minLhs
      cfg.maxLhs row t ∧ hypPasses cfg.functions row t key = true
  · rw [if_pos hpass]
    exact getHyp_pruneFold_some _ _
      (by rw [getHyp_newHyps]; exact if_pos hpass)
  · rw [if_neg hpass]
    exact getHyp_pruneFold_none _ hnd
      (by rw [getHyp_newHyps]; exact if_neg hpass)

/-- A map over the entries that preserves each key and failure count
preserves the failure count delivered by lookup. -/
theorem getHyp_map_fst
    (f : (HypKey V × Nat × Option (Knowledge V)) → HypKey V × Nat × Option (Knowledge V))
    (hf : ∀ e, (f e).1 = e.1 ∧ (f e).2.1 = e.2.1)
    (l : List (HypKey V × Nat × Option (Knowledge V))) (key : HypKey V) :
    (getHyp key (l.map f)).map (fun v => v.1) =
      (getHyp key l).map (fun v => v.1) := by
  induction l with
  | nil => rfl
  | cons e l ih =>
    simp only [List.map_cons, getHyp_cons, (hf e).1]
    by_cases hk : e.1 = key
    · simp [hk, (hf e).2]
    · simp [hk, ih]

/-- One-step unfolding of `onFuel` at positive fuel. -/
theorem onFuel_succ (fuel : Nat) (cfg : Config V)
    (hyps : List (HypKey V × Nat × Option (Knowledge V))) (row : List V)
    (t : Nat) :
    onFuel (fuel + 1) (.mk cfg hyps) row t =
      if cfg.maxDepth ≤ 0 then trainCore (.mk cfg hyps) row t
      else .mk cfg ((trainCore (.mk cfg hyps) row t).hyps.map fun e =>
        if e.1.rhs = RhsDesc.target then e
        else if some e.1 = cfg.parentKey then e
        else if passesFC cfg.functions row e.1 then
          (e.1, e.2.1, some (onFuel fuel ((e.2.2).getD (freshChild cfg e.1)) row t))
        else e) := by
  rfl

/-- `_update_children` preserves every key's failure count, so the failure
count after a full `on` call is the one computed by the map update. -/
theorem getHyp_on_fst (cfg : Config V)
    (hyps : List (HypKey V × Nat × Option (Knowledge V))) (row : List V)
    (t : Nat) (key : HypKey V) :
    (getHyp key ((Knowledge.mk cfg hyps).on row t).hyps).map (fun v => v.1) =
      (getHyp key (trainCore (.mk cfg hyps) row t).hyps).map (fun v => v.1) := by
  have hon : (Knowledge.mk cfg hyps).on row t =
      onFuel (cfg.maxDepth.toNat + 1) (.mk cfg hyps) row t := rfl
  rw [hon, onFuel_succ]
  split
  · rfl
  · refine getHyp_map_fst _ (fun e => ?_) _ key
    refine ⟨?_, ?_⟩ <;> (repeat' split) <;> rfl

/-- C1.  Tolerance-pruning state machine, phrased as one lookup equation on
the failure count after a `train` call: a key that is enumerated and passes
is bound to its previous count (unchanged by success) or to 0 when it was
untracked (including re-creation after a drop); any other key, if tracked
with count `c`, is bound to `c + 1` when `c + 1 <= tolerance` and dropped
(together with its child entry) otherwise. -/
theorem c1_tolerance_pruning (cfg : Config V)
    (hyps : List (HypKey V × Nat × Option (Knowledge V))) (row : List V)
    (t : Nat) (key : HypKey V) (hnd : (hyps.map (fun e => e.1)).Nodup) :
    (getHyp key ((Knowledge.mk cfg hyps).on row t).hyps).map (fun v => v.1) =
      if key ∈ enumKeys cfg.functions cfg.constants cfg.minLhs cfg.maxLhs row t
         ∧ hypPasses cfg.functions row t key = true
      then some (((getHyp key hyps).map (fun v => v.1)).getD 0)
      else (getHyp key hyps).bind
        (fun v => if ((v.1 + 1 : Nat) : Int) ≤ cfg.tolerance then some (v.1 + 1)
                  else none) := by
  rw [getHyp_on_fst, getHyp_trainCore cfg hyps row t key hnd]
  split
  · cases getHyp key hyps <;> simp
  · cases getHyp key hyps with
    | none => simp
    | some v =>
      simp only [Option.some_bind]
      split <;> simp

/-- Concrete tracked map for the C1 witness: one target hypothesis with
failure count 3. -/
def hypsW : List (HypKey (Option Int) × Nat × Option (Knowledge (Option Int))) :=
  [(⟨0, [0, 1], RhsDesc.target⟩, 3, none)]

def rowW : List (Option Int) := [some 1, some 2, some 3]

def keyW : HypKey (Option Int) := ⟨0, [0, 1], RhsDesc.target⟩

/-- Witness for C1 at a concrete learner: the tracked target hypothesis
passes on the row `[1,2,3]` and its failure count stays 3. -/
theorem c1_tolerance_pruning_witness :
    ((hypsW.map (fun e => e.1)).Nodup) ∧
    ((getHyp keyW ((Knowledge.mk cfgA hypsW).on rowW 2).hyps).map (fun v => v.1) =
      if keyW ∈ enumKeys cfgA.functions cfgA.constants cfgA.minLhs cfgA.maxLhs
          rowW 2 ∧ hypPasses cfgA.functions rowW 2 keyW = true
      then some (((getHyp keyW hypsW).map (fun v => v.1)).getD 0)
      else (getHyp keyW hypsW).bind
        (fun v => if ((v.1 + 1 : Nat) : Int) ≤ cfgA.tolerance then some (v.1 + 1)
                  else none)) :=
  ⟨by decide, c1_tolerance_pruning cfgA hypsW rowW 2 keyW (by decide)⟩

/-! ### Tree invariants of reachable learner states -/

/-- Combined structural invariant of every learner state reachable by
training from a fresh construction: a hypothesis owning a child is never a
target hypothesis, never the learner's own `parent_key`, its child carries
`parent_key = key` and `max_depth` one less than the owner's (which is
positive), and the child satisfies the invariant recursively. -/
inductive Inv : Knowledge V → Prop where
  | mk (cfg : Config V) (hyps : List (HypKey V × Nat × Option (Knowledge V)))
      (hok : ∀ key c c', (key, c, some c') ∈ hyps →
        key.rhs ≠ RhsDesc.target ∧ some key ≠ cfg.parentKey ∧
        c'.parentKey = some key ∧ c'.maxDepth = cfg.maxDepth - 1 ∧
        1 ≤ cfg.maxDepth)
      (hrec : ∀ key c c', (key, c, some c') ∈ hyps → Inv c') :
      Inv (.mk cfg hyps)

theorem getHyp_mem {key : HypKey V}
    {l : List (HypKey V × Nat × Option (Knowledge V))} {v}
    (h : getHyp key l = some v) : (key, v) ∈ l := by
  induction l with
  | nil => simp [getHyp] at h
  | cons e l ih =>
    obtain ⟨k, w⟩ := e
    by_cases hk : k = key
    · subst hk
      have h' : w = v := by simpa [getHyp] using h
      subst h'
      exact List.mem_cons_self _ _
    · simp only [getHyp, if_neg hk] at h
      exact List.mem_cons_of_mem _ (ih h)

theorem mem_putHyp {e : HypKey V × Nat × Option (Knowledge V)} {key v}
    {l : List (HypKey V × Nat × Option (Knowledge V))}
    (h : e ∈ putHyp key v l) : e = (key, v) ∨ e ∈ l := by
  induction l with
  | nil => simpa [putHyp] using h
  | cons x l ih =>
    obtain ⟨k, w⟩ := x
    by_cases hk : k = key
    · subst hk
      have h' : e = (k, v) ∨ e ∈ l := by simpa [putHyp] using h
      rcases h' with h' | h'
      · exact Or.inl h'
      · exact Or.inr (List.mem_cons_of_mem _ h')
    · have h' : e = (k, w) ∨ e ∈ putHyp key v l := by
        simpa [putHyp, hk] using h
      rcases h' with h' | h'
      · exact Or.inr (h' ▸ List.mem_cons_self _ _)
      · rcases ih h' with h'' | h''
        · exact Or.inl h''
        · exact Or.inr (List.mem_cons_of_mem _ h'')

/-- Every entry of the passing loop's accumulator is childless or reuses a
tracked entry's state. -/
theorem mem_newHyps {cfg : Config V}
    {hyps : List (HypKey V × Nat × Option (Knowledge V))} {row : List V}
    {t : Nat} {e : HypKey V × Nat × Option (Knowledge V)}
    (he : e ∈ newHyps cfg hyps row t) :
    e.2.2 = none ∨ ∃ c₀, (e.1, c₀, e.2.2) ∈ hyps := by
  have main : ∀ (keys : List (HypKey V))
      (acc : List (HypKey V × Nat × Option (Knowledge V))),
      (∀ e' ∈ acc, e'.2.2 = none ∨ ∃ c₀, (e'.1, c₀, e'.2.2) ∈ hyps) →
      ∀ e' ∈ keys.foldl
        (fun acc' k => if hypPasses cfg.functions row t k then
          putHyp k ((getHyp k hyps).getD (0, none)) acc' else acc') acc,
        e'.2.2 = none ∨ ∃ c₀, (e'.1, c₀, e'.2.2) ∈ hyps := by
    intro keys
    induction keys with
    | nil => intro acc hacc e' he'; exact hacc e' he'
    | cons x keys ih =>
      intro acc hacc e' he'
      simp only [List.foldl_cons] at he'
      refine ih _ ?_ e' he'
      intro e'' he''
      split at he''
      · rcases mem_putHyp he'' with rfl | h
        · cases hget : getHyp x hyps with
          | none => simp [hget]
          | some v =>
            right
            refine ⟨v.1, ?_⟩
            simpa [hget] using getHyp_mem hget
        · exact hacc _ h
      · exact hacc _ he''
  exact main _ [] (by simp) e he

/-- Every entry of the pruning loop's result comes from the accumulator or
reuses (with incremented count) a tracked entry's key and child. -/
theorem mem_pruneFold {tol : Int}
    {hyps acc : List (HypKey V × Nat × Option (Knowledge V))}
    {e : HypKey V × Nat × Option (Knowledge V)}
    (he : e ∈ pruneFold tol hyps acc) :
    e ∈ acc ∨ ∃ c₀, (e.1, c₀, e.2.2) ∈ hyps := by
  induction hyps generalizing acc with
  | nil => exact Or.inl he
  | cons x hyps ih =>
    rw [pruneFold_cons] at he
    rcases ih he with h | ⟨c₀, h⟩
    · split at h
      · exact Or.inl h
      · split at h
        · rcases List.mem_append.mp h with h' | h'
          · exact Or.inl h'
          · simp only [List.mem_singleton] at h'
            subst h'
            exact Or.inr ⟨x.2.1, List.mem_cons_self _ _⟩
        · exact Or.inl h
    · exact Or.inr ⟨c₀, List.mem_cons_of_mem _ h⟩

/-- Every child-owning entry of the map update reuses the child (and key) of
a previously tracked entry. -/
theorem trainCore_child_mem {cfg : Config V}
    {hyps : List (HypKey V × Nat × Option (Knowledge V))} {row : List V}
    {t : Nat} {key : HypKey V} {c : Nat} {c' : Knowledge V}
    (h : (key, c, some c') ∈ (trainCore (.mk cfg hyps) row t).hyps) :
    ∃ c₀, (key, c₀, some c') ∈ hyps := by
  have h' : (key, c, some c') ∈
      pruneFold cfg.tolerance hyps (newHyps cfg hyps row t) := h
  rcases mem_pruneFold h' with h'' | h''
  · rcases mem_newHyps h'' with h3 | h3
    · simp at h3
    · exact h3
  · exact h''

theorem cfg_trainCore (k : Knowledge V) (row : List V) (t : Nat) :
    (trainCore k row t).cfg = k.cfg := by
  cases k
  rfl

theorem cfg_onFuel (fuel : Nat) (k : Knowledge V) (row : List V) (t : Nat) :
    (onFuel fuel k row t).cfg = k.cfg := by
  cases fuel with
  | zero => rfl
  | succ fuel =>
    cases k with
    | mk cfg hyps =>
      rw [onFuel_succ]
      split <;> rfl

theorem inv_trainCore {cfg : Config V}
    {hyps : List (HypKey V × Nat × Option (Knowledge V))}
    (hinv : Inv (.mk cfg hyps)) (row : List V) (t : Nat) :
    Inv (trainCore (.mk cfg hyps) row t) := by
  cases hinv with
  | mk _ _ hok hrec =>
    refine Inv.mk cfg _ ?_ ?_
    · intro key c c' hmem
      obtain ⟨c₀, h₀⟩ := trainCore_child_mem hmem
      exact hok key c₀ c' h₀
    · intro key c c' hmem
      obtain ⟨c₀, h₀⟩ := trainCore_child_mem hmem
      exact hrec key c₀ c' h₀

theorem inv_mk_nil (cfg : Config V) : Inv (Knowledge.mk cfg []) :=
  Inv.mk cfg [] (by simp) (by simp)

theorem inv_freshK (cfg : Config V) : Inv (freshK cfg) := inv_mk_nil cfg

theorem inv_onFuel (fuel : Nat) (row : List V) (t : Nat) :
    ∀ k : Knowledge V, Inv k → Inv (onFuel fuel k row t) := by
  induction fuel with
  | zero => intro k h; exact h
  | succ fuel ih =>
    intro k hinv
    cases k with
    | mk cfg hyps =>
      rw [onFuel_succ]
      have hinv1 : Inv (trainCore (.mk cfg hyps) row t) :=
        inv_trainCore hinv row t
      split
      · exact hinv1
      case isFalse hmd =>
        have hcore : trainCore (.mk cfg hyps) row t =
            .mk cfg (trainCore (.mk cfg hyps) row t).hyps := rfl
        rw [hcore] at hinv1
        cases hinv1 with
        | mk _ _ hok1 hrec1 =>
          refine Inv.mk cfg _ ?_ ?_
          · intro key c c' hmem
            obtain ⟨e, he, hfe⟩ := List.mem_map.mp hmem
            by_cases h1 : e.1.rhs = RhsDesc.target
            · rw [if_pos h1] at hfe
              subst hfe
              exact hok1 _ _ _ he
            · rw [if_neg h1] at hfe
              by_cases h2 : some e.1 = cfg.parentKey
              · rw [if_pos h2] at hfe
                subst hfe
                exact hok1 _ _ _ he
              · rw [if_neg h2] at hfe
                by_cases h3 : passesFC cfg.functions row e.1 = true
                · rw [if_pos h3] at hfe
                  cases hfe
                  refine ⟨h1, h2, ?_, ?_, by omega⟩
                  · rw [show (onFuel fuel (e.2.2.getD (freshChild cfg e.1)) row t).parentKey =
                        (e.2.2.getD (freshChild cfg e.1)).parentKey from
                        congrArg Config.parentKey (cfg_onFuel fuel _ row t)]
                    cases hch : e.2.2 with
                    | none => rfl
                    | some c₀ =>
                      have he' : (e.1, e.2.1, some c₀) ∈
                          (trainCore (.mk cfg hyps) row t).hyps := by
                        rw [show (e.1, e.2.1, some c₀) =
                            (e.1, e.2.1, e.2.2) from by rw [hch]]
                        exact he
                      exact ((hok1 _ _ _ he').2.2).1
                  · rw [show (onFuel fuel (e.2.2.getD (freshChild cfg e.1)) row t).maxDepth =
                        (e.2.2.getD (freshChild cfg e.1)).maxDepth from
                        congrArg Config.maxDepth (cfg_onFuel fuel _ row t)]
                    cases hch : e.2.2 with
                    | none => rfl
                    | some c₀ =>
                      have he' : (e.1, e.2.1, some c₀) ∈
                          (trainCore (.mk cfg hyps) row t).hyps := by
                        rw [show (e.1, e.2.1, some c₀) =
                            (e.1, e.2.1, e.2.2) from by rw [hch]]
                        exact he
                      exact ((hok1 _ _ _ he').2.2).2.1
                · rw [if_neg h3] at hfe
                  subst hfe
                  exact hok1 _ _ _ he
          · intro key c c' hmem
            obtain ⟨e, he, hfe⟩ := List.mem_map.mp hmem
            by_cases h1 : e.1.rhs = RhsDesc.target
            · rw [if_pos h1] at hfe
              subst hfe
              exact hrec1 _ _ _ he
            · rw [if_neg h1] at hfe
              by_cases h2 : some e.1 = cfg.parentKey
              · rw [if_pos h2] at hfe
                subst hfe
                exact hrec1 _ _ _ he
              · rw [if_neg h2] at hfe
                by_cases h3 : passesFC cfg.functions row e.1 = true
                · rw [if_pos h3] at hfe
                  cases hfe
                  refine ih _ ?_
                  cases hch : e.2.2 with
                  | none => exact inv_mk_nil _
                  | some c₀ =>
                    have he' : (e.1, e.2.1, some c₀) ∈
                        (trainCore (.mk cfg hyps) row t).hyps := by
                      rw [show (e.1, e.2.1, some c₀) =
                          (e.1, e.2.1, e.2.2) from by rw [hch]]
                      exact he
                    exact hrec1 _ _ _ he'
                · rw [if_neg h3] at hfe
                  subst hfe
                  exact hrec1 _ _ _ he

theorem inv_on {k : Knowledge V} (h : Inv k) (row : List V) (t : Nat) :
    Inv (k.on row t) :=
  inv_onFuel _ row t k h

theorem inv_trainList (ctxs : List (List V × Nat)) :
    ∀ {k : Knowledge V}, Inv k → Inv (trainList k ctxs) := by
  induction ctxs with
  | nil => intro k h; exact h
  | cons c ctxs ih => intro k h; exact ih (inv_on h c.1 c.2)

theorem cfg_on (k : Knowledge V) (row : List V) (t : Nat) :
    (k.on row t).cfg = k.cfg :=
  cfg_onFuel _ _ _ _

theorem cfg_trainList (ctxs : List (List V × Nat)) :
    ∀ k : Knowledge V, (trainList k ctxs).cfg = k.cfg := by
  induction ctxs with
  | nil => intro k; rfl
  | cons c ctxs ih => intro k; exact (ih _).trans (cfg_on k c.1 c.2)

/-- Target-descriptor hypotheses are terminal, everywhere in the learner
tree: they never own a child. -/
inductive TargetsTerminal : Knowledge V → Prop where
  | mk (cfg : Config V) (hyps : List (HypKey V × Nat × Option (Knowledge V)))
      (hterm : ∀ key c ch, (key, c, ch) ∈ hyps →
        key.rhs = RhsDesc.target → ch = none)
      (hrec : ∀ key c c', (key, c, some c') ∈ hyps → TargetsTerminal c') :
      TargetsTerminal (.mk cfg hyps)

theorem inv_targetsTerminal {k : Knowledge V} (h : Inv k) :
    TargetsTerminal k := by
  induction h with
  | mk cfg hyps hok hrec ih =>
    refine TargetsTerminal.mk cfg hyps ?_ ?_
    · intro key c ch hmem hrhs
      cases ch with
      | none => rfl
      | some c' => exact absurd hrhs (hok _ _ _ hmem).1
    · intro key c c' hmem
      exact ih _ _ _ hmem

/-- Every child learner in the tree carries `parent_key` equal to the key of
the hypothesis that owns it, and no hypothesis whose key equals the owning
learner's own `parent_key` ever owns a child. -/
inductive SelfGuarded : Knowledge V → Prop where
  | mk (cfg : Config V) (hyps : List (HypKey V × Nat × Option (Knowledge V)))
      (hguard : ∀ key c c', (key, c, some c') ∈ hyps →
        c'.parentKey = some key ∧ some key ≠ cfg.parentKey)
      (hrec : ∀ key c c', (key, c, some c') ∈ hyps → SelfGuarded c') :
      SelfGuarded (.mk cfg hyps)

theorem inv_selfGuarded {k : Knowledge V} (h : Inv k) : SelfGuarded k := by
  induction h with
  | mk cfg hyps hok hrec ih =>
    refine SelfGuarded.mk cfg hyps ?_ ?_
    · intro key c c' hmem
      exact ⟨(hok _ _ _ hmem).2.2.1, (hok _ _ _ hmem).2.1⟩
    · intro key c c' hmem
      exact ih _ _ _ hmem

/-- C5.  Target terminality invariant: after any sequence of train calls on a
freshly constructed learner, everywhere in the learner tree, every retained
hypothesis whose RHS descriptor is the target has no child; only feature- and
constant-RHS hypotheses can own a child learner. -/
theorem c5_target_terminality (cfg : Config V) (ctxs : List (List V × Nat)) :
    TargetsTerminal (trainList (freshK cfg) ctxs) :=
  inv_targetsTerminal (inv_trainList ctxs (inv_freshK cfg))

/-- C7.  Self-nesting guard: after any sequence of train calls on a freshly
constructed learner (whatever its own `parent_key`), every child learner in
the tree was constructed with `parent_key` equal to the key of the hypothesis
that spawned it, and no learner ever owns a child for the hypothesis whose
key equals its own `parent_key` — hence a child created under key `K` never
owns a grandchild under the identical key `K`. -/
theorem c7_self_nesting_guard (cfg : Config V) (ctxs : List (List V × Nat)) :
    SelfGuarded (trainList (freshK cfg) ctxs) :=
  inv_selfGuarded (inv_trainList ctxs (inv_freshK cfg))

theorem childFree_of_inv {k : Knowledge V} (h : Inv k)
    (hmd : k.maxDepth ≤ 0) : childFree k = true := by
  cases h with
  | mk cfg hyps hok hrec =>
    simp only [childFree, Knowledge.hyps, List.all_eq_true]
    intro e he
    cases hch : e.2.2 with
    | none => simp [hch]
    | some c' =>
      have hmem : (e.1, e.2.1, some c') ∈ hyps := by
        rw [show (e.1, e.2.1, some c') = (e.1, e.2.1, e.2.2) from by rw [hch]]
        exact he
      have h1 := (hok _ _ _ hmem).2.2.2.2
      have h0 : cfg.maxDepth ≤ 0 := hmd
      omega

/-- C6.  Depth bound: a learner constructed with `max_depth <= 0` never
creates a child — after every sequence of train calls all retained hypotheses
are childless. -/
theorem c6_depth_zero_no_children (cfg : Config V) (hmd : cfg.maxDepth ≤ 0)
    (ctxs : List (List V × Nat)) :
    childFree (trainList (freshK cfg) ctxs) = true := by
  apply childFree_of_inv (inv_trainList ctxs (inv_freshK cfg))
  show (trainList (freshK cfg) ctxs).cfg.maxDepth ≤ 0
  rw [cfg_trainList]
  exact hmd

/-- Configuration for the C6 witness: scenario A's learner with
`max_depth = 0`. -/
def cfgW6 : Config (Option Int) :=
  { functions := [equalsSum], constants := [], minLhs := 2, maxLhs := 2,
    tolerance := 5, maxDepth := 0, parentKey := none }

/-- Witness for C6 at a concrete configuration and training sequence. -/
theorem c6_depth_zero_no_children_witness :
    (cfgW6.maxDepth ≤ 0) ∧
    childFree (trainList (freshK cfgW6) [([some 1, some 2, some 3], 2)]) = true :=
  ⟨by decide, c6_depth_zero_no_children cfgW6 (by decide) _⟩

/-! ### Depth bound: fuel beyond `max_depth` is irrelevant on reachable
learners -/

/-- One-step unfolding of `predictFuel` at positive fuel. -/
theorem predictFuel_succ (fuel : Nat) (cfg : Config V)
    (hyps : List (HypKey V × Nat × Option (Knowledge V))) (row : List V) :
    predictFuel (fuel + 1) (.mk cfg hyps) row =
      hyps.flatMap fun e =>
        match e.1.rhs with
        | RhsDesc.target => inferOut cfg.functions row e.1
        | _ =>
          if passesFC cfg.functions row e.1 then
            match e.2.2 with
            | some child => predictFuel fuel child row
            | none => []
          else [] := by
  rfl

/-- The recursion of `on` visits children of depth budget exactly one less,
so any two fuels at least `max_depth + 1` compute the same training result on
an invariant-satisfying learner. -/
theorem onFuel_stable (row : List V) (t : Nat) :
    ∀ f : Nat, ∀ (k : Knowledge V) (g : Nat), Inv k →
      k.maxDepth.toNat + 1 ≤ f → k.maxDepth.toNat + 1 ≤ g →
      onFuel f k row t = onFuel g k row t := by
  intro f
  induction f with
  | zero => intro k g _ hf _; omega
  | succ f ih =>
    intro k g hinv hf hg
    cases g with
    | zero => omega
    | succ g =>
      cases k with
      | mk cfg hyps =>
        replace hf : cfg.maxDepth.toNat + 1 ≤ f + 1 := hf
        replace hg : cfg.maxDepth.toNat + 1 ≤ g + 1 := hg
        rw [onFuel_succ, onFuel_succ]
        by_cases hmd : cfg.maxDepth ≤ 0
        · rw [if_pos hmd, if_pos hmd]
        · rw [if_neg hmd, if_neg hmd]
          have hinv1 : Inv (trainCore (.mk cfg hyps) row t) :=
            inv_trainCore hinv row t
          have hcore : trainCore (.mk cfg hyps) row t =
              .mk cfg (trainCore (.mk cfg hyps) row t).hyps := rfl
          rw [hcore] at hinv1
          cases hinv1 with
          | mk _ _ hok1 hrec1 =>
            congr 1
            apply List.map_congr_left
            intro e he
            by_cases h1 : e.1.rhs = RhsDesc.target
            · rw [if_pos h1, if_pos h1]
            · rw [if_neg h1, if_neg h1]
              by_cases h2 : some e.1 = cfg.parentKey
              · rw [if_pos h2, if_pos h2]
              · rw [if_neg h2, if_neg h2]
                by_cases h3 : passesFC cfg.functions row e.1 = true
                · rw [if_pos h3, if_pos h3]
                  have hchild : Inv (e.2.2.getD (freshChild cfg e.1)) ∧
                      (e.2.2.getD (freshChild cfg e.1)).maxDepth =
                        cfg.maxDepth - 1 := by
                    cases hch : e.2.2 with
                    | none => exact ⟨inv_mk_nil _, rfl⟩
                    | some c₀ =>
                      have he' : (e.1, e.2.1, some c₀) ∈
                          (trainCore (.mk cfg hyps) row t).hyps := by
                        rw [show (e.1, e.2.1, some c₀) =
                            (e.1, e.2.1, e.2.2) from by rw [hch]]
                        exact he
                      exact ⟨hrec1 _ _ _ he', ((hok1 _ _ _ he').2.2).2.1⟩
                  have hb : (e.2.2.getD (freshChild cfg e.1)).maxDepth.toNat + 1 ≤ f ∧
                      (e.2.2.getD (freshChild cfg e.1)).maxDepth.toNat + 1 ≤ g := by
                    rw [hchild.2]
                    omega
                  rw [ih _ g hchild.1 hb.1 hb.2]
                · rw [if_neg h3, if_neg h3]

/-- The recursion of `predict` only descends through stored children, whose
depth budget is again one less, so any two fuels at least `max_depth + 1`
compute the same predictions on an invariant-satisfying learner. -/
theorem predictFuel_stable (row : List V) :
    ∀ f : Nat, ∀ (k : Knowledge V) (g : Nat), Inv k →
      k.maxDepth.toNat + 1 ≤ f → k.maxDepth.toNat + 1 ≤ g →
      predictFuel f k row = predictFuel g k row := by
  intro f
  induction f with
  | zero => intro k g _ hf _; omega
  | succ f ih =>
    intro k g hinv hf hg
    cases g with
    | zero => omega
    | succ g =>
      cases k with
      | mk cfg hyps =>
        replace hf : cfg.maxDepth.toNat + 1 ≤ f + 1 := hf
        replace hg : cfg.maxDepth.toNat + 1 ≤ g + 1 := hg
        rw [predictFuel_succ, predictFuel_succ]
        cases hinv with
        | mk _ _ hok hrec =>
          apply List.flatMap_congr
          rintro ⟨key, c, ch⟩ he
          cases hkey : key.rhs with
          | target => rfl
          | feature i =>
            dsimp only
            by_cases h3 : passesFC cfg.functions row
                (⟨key.fnIndex, key.lhs, key.rhs⟩ : HypKey V) = true
            all_goals {
              cases ch with
              | none => rfl
              | some child =>
                have hmem : (key, c, some child) ∈ hyps := he
                have hmd : child.maxDepth = cfg.maxDepth - 1 :=
                  ((hok _ _ _ hmem).2.2).2.1
                have hpos : 1 ≤ cfg.maxDepth := ((hok _ _ _ hmem).2.2).2.2
                have hb : child.maxDepth.toNat + 1 ≤ f ∧
                    child.maxDepth.toNat + 1 ≤ g := by
                  rw [hmd]; omega
                simp only [ih child g (hrec _ _ _ hmem) hb.1 hb.2]
            }
          | const cv =>
            dsimp only
            by_cases h3 : passesFC cfg.functions row
                (⟨key.fnIndex, key.lhs, key.rhs⟩ : HypKey V) = true
            all_goals {
              cases ch with
              | none => rfl
              | some child =>
                have hmem : (key, c, some child) ∈ hyps := he
                have hmd : child.maxDepth = cfg.maxDepth - 1 :=
                  ((hok _ _ _ hmem).2.2).2.1
                have hpos : 1 ≤ cfg.maxDepth := ((hok _ _ _ hmem).2.2).2.2
                have hb : child.maxDepth.toNat + 1 ≤ f ∧
                    child.maxDepth.toNat + 1 ≤ g := by
                  rw [hmd]; omega
                simp only [ih child g (hrec _ _ _ hmem) hb.1 hb.2]
            }

/-- C9.  Bounded recursion and termination: on any learner reachable by
training a fresh construction, both `train` and `predict` are insensitive to
any recursion allowance of at least `max_depth + 1` — the recursion descends
only through owned children, each created with budget `max_depth - 1`, so
every recursive call chain has depth at most the root's `max_depth`. -/
theorem c9_bounded_recursion (cfg : Config V) (ctxs : List (List V × Nat))
    (row : List V) (t : Nat) (fuel : Nat)
    (hf : cfg.maxDepth.toNat + 1 ≤ fuel) :
    onFuel fuel (trainList (freshK cfg) ctxs) row t =
      (trainList (freshK cfg) ctxs).on row t ∧
    predictFuel fuel (trainList (freshK cfg) ctxs) row =
      (trainList (freshK cfg) ctxs).predict row := by
  have hinv := inv_trainList ctxs (inv_freshK cfg)
  have hmd : (trainList (freshK cfg) ctxs).maxDepth = cfg.maxDepth := by
    show (trainList (freshK cfg) ctxs).cfg.maxDepth = cfg.maxDepth
    rw [cfg_trainList]
    rfl
  refine ⟨onFuel_stable row t fuel _
      ((trainList (freshK cfg) ctxs).maxDepth.toNat + 1) hinv ?_ (Nat.le_refl _),
    predictFuel_stable row fuel _
      ((trainList (freshK cfg) ctxs).maxDepth.toNat + 1) hinv ?_ (Nat.le_refl _)⟩ <;>
    (rw [hmd]; exact hf)

/-- Witness for C9 at a concrete trained learner and fuel 5. -/
theorem c9_bounded_recursion_witness :
    (cfgA.maxDepth.toNat + 1 ≤ 5) ∧
    (onFuel 5 (trainList (freshK cfgA) [([some 3, some 5, some 8], 2)])
        [some 1, some 2, none] 2 =
      (trainList (freshK cfgA) [([some 3, some 5, some 8], 2)]).on
        [some 1, some 2, none] 2 ∧
     predictFuel 5 (trainList (freshK cfgA) [([some 3, some 5, some 8], 2)])
        [some 1, some 2, none] =
      (trainList (freshK cfgA) [([some 3, some 5, some 8], 2)]).predict
        [some 1, some 2, none]) :=
  ⟨by decide, c9_bounded_recursion cfgA [([some 3, some 5, some 8], 2)]
    [some 1, some 2, none] 2 5 (by decide)⟩

/-- C10.  `predict` is read-only: the state-threading translation `predictM`
returns the learner tree unchanged — hypotheses map, failure counts, child
pointers and every configuration in the tree — together with exactly the
predictions of `predict` (`Knowledge.predict` is `predictFuel` at the
canonical fuel), at every fuel. -/
theorem c10_predict_read_only (fuel : Nat) (k : Knowledge V) (row : List V) :
    predictM fuel k row = (k, predictFuel fuel k row) := by
  induction fuel generalizing k with
  | zero => rfl
  | succ fuel ih =>
    cases k with
    | mk cfg hyps =>
      have hfold : ∀ (l : List (HypKey V × Nat × Option (Knowledge V)))
          (accL : List (HypKey V × Nat × Option (Knowledge V))) (accO : List V),
          (l.foldl
            (fun acc e =>
              match e.1.rhs with
              | RhsDesc.target =>
                (acc.1 ++ [e], acc.2 ++ inferOut cfg.functions row e.1)
              | _ =>
                if passesFC cfg.functions row e.1 then
                  match e.2.2 with
                  | some child =>
                    (acc.1 ++ [(e.1, e.2.1, some (predictM fuel child row).1)],
                     acc.2 ++ (predictM fuel child row).2)
                  | none => (acc.1 ++ [e], acc.2)
                else (acc.1 ++ [e], acc.2))
            (accL, accO)) =
          (accL ++ l,
           accO ++ l.flatMap fun e =>
             match e.1.rhs with
             | RhsDesc.target => inferOut cfg.functions row e.1
             | _ =>
               if passesFC cfg.functions row e.1 then
                 match e.2.2 with
                 | some child => predictFuel fuel child row
                 | none => []
               else []) := by
        intro l
        induction l with
        | nil => intro accL accO; simp
        | cons e l ihl =>
          intro accL accO
          rcases e with ⟨key, c, ch⟩
          simp only [List.foldl_cons, List.flatMap_cons]
          cases hkey : key.rhs with
          | target =>
            rw [ihl]
            simp
          | feature i =>
            dsimp only
            cases ch with
            | none =>
              by_cases h3 : passesFC cfg.functions row key = true
              · simp only [h3, eq_self_iff_true, if_true]
                rw [ihl]
                simp
              · simp only [h3, if_false]
                rw [ihl]
                simp
            | some child =>
              by_cases h3 : passesFC cfg.functions row key = true
              · simp only [h3, eq_self_iff_true, if_true, ih child]
                rw [ihl]
                simp
              · simp only [h3, if_false]
                rw [ihl]
                simp
          | const cv =>
            dsimp only
            cases ch with
            | none =>
              by_cases h3 : passesFC cfg.functions row key = true
              · simp only [h3, eq_self_iff_true, if_true]
                rw [ihl]
                simp
              · simp only [h3, if_false]
                rw [ihl]
                simp
            | some child =>
              by_cases h3 : passesFC cfg.functions row key = true
              · simp only [h3, eq_self_iff_true, if_true, ih child]
                rw [ihl]
                simp
              · simp only [h3, if_false]
                rw [ihl]
                simp
      have hM : predictM (fuel + 1) (Knowledge.mk cfg hyps) row =
          (Knowledge.mk cfg
            (hyps.foldl
              (fun acc e =>
                match e.1.rhs with
                | RhsDesc.target =>
                  (acc.1 ++ [e], acc.2 ++ inferOut cfg.functions row e.1)
                | _ =>
                  if passesFC cfg.functions row e.1 then
                    match e.2.2 with
                    | some child =>
                      (acc.1 ++ [(e.1, e.2.1, some (predictM fuel child row).1)],
                       acc.2 ++ (predictM fuel child row).2)
                    | none => (acc.1 ++ [e], acc.2)
                  else (acc.1 ++ [e], acc.2))
              ([], [])).1,
           (hyps.foldl
              (fun acc e =>
                match e.1.rhs with
                | RhsDesc.target =>
                  (acc.1 ++ [e], acc.2 ++ inferOut cfg.functions row e.1)
                | _ =>
                  if passesFC cfg.functions row e.1 then
                    match e.2.2 with
                    | some child =>
                      (acc.1 ++ [(e.1, e.2.1, some (predictM fuel child row).1)],
                       acc.2 ++ (predictM fuel child row).2)
                    | none => (acc.1 ++ [e], acc.2)
                  else (acc.1 ++ [e], acc.2))
              ([], [])).2) := rfl
      rw [hM, hfold hyps [] [], predictFuel_succ]
      simp

/-! ### Relation-function exceptions are swallowed -/

/-- C4.  Relation-function exceptions never escape: a raised exception is the
`none` result of the opaque function, and wherever the source evaluates a
function inside its `try/except` blocks, the embedding's total evaluators
turn that `none` into "relation does not hold" / "no prediction".  For a
hypothesis whose function raises on its LHS values: training-time comparison
(`hypPasses`) and the comparison shared by `_update_children` and `predict`
(`passesFC`) are `false`; a learner tracking only that hypothesis predicts
nothing; and a train call treats it exactly as a failing hypothesis
(increment-and-prune).  `on` and `predict` remain total functions — no error
channel exists in their types. -/
theorem c4_exceptions_never_escape (cfg : Config V) (row : List V) (t : Nat)
    (key : HypKey V) (c : Nat) (ch : Option (Knowledge V)) (vals : List V)
    (f : RelFn V) (fuel : Nat)
    (hv : getVals row key.lhs = some vals)
    (hf : cfg.functions.get? key.fnIndex = some f)
    (heval : ∀ r, f.eval vals r = none)
    (hinf : f.infer vals = none) :
    hypPasses cfg.functions row t key = false ∧
    passesFC cfg.functions row key = false ∧
    predictFuel (fuel + 1) (.mk cfg [(key, c, ch)]) row = [] ∧
    getHyp key (trainCore (.mk cfg [(key, c, ch)]) row t).hyps =
      (if ((c + 1 : Nat) : Int) ≤ cfg.tolerance then some (c + 1, ch)
       else none) := by
  have hevalFn : ∀ r, evalFn cfg.functions key.fnIndex vals r = false := by
    intro r
    unfold evalFn
    rw [hf]
    show (f.eval vals r).getD false = false
    rw [heval r]
    rfl
  have hpFC : passesFC cfg.functions row key = false := by
    unfold passesFC
    rw [hv]
    cases hfc : featConstValue row key.rhs with
    | none => rfl
    | some r => exact hevalFn r
  have hpT : hypPasses cfg.functions row t key = false := by
    unfold hypPasses
    cases hr : key.rhs with
    | target =>
      rw [hv]
      cases hy : row.get? t with
      | none => rfl
      | some y => exact hevalFn y
    | feature i => exact hpFC
    | const cv => exact hpFC
  refine ⟨hpT, hpFC, ?_, ?_⟩
  · rw [predictFuel_succ]
    simp only [List.flatMap_cons, List.flatMap_nil, List.append_nil]
    cases hr : key.rhs with
    | target =>
      show inferOut cfg.functions row key = []
      unfold inferOut
      rw [hv, hf]
      show (match f.infer vals with
        | some y => [y]
        | none => ([] : List V)) = []
      rw [hinf]
    | feature i =>
      simp [hpFC]
    | const cv =>
      simp [hpFC]
  · have hnd : (([(key, c, ch)].map (fun e => e.1)).Nodup) := by simp
    rw [getHyp_trainCore cfg [(key, c, ch)] row t key hnd]
    have hcond : ¬(key ∈ enumKeys cfg.functions cfg.constants cfg.minLhs
        cfg.maxLhs row t ∧ hypPasses cfg.functions row t key = true) := by
      rintro ⟨-, hp⟩
      rw [hpT] at hp
      exact Bool.false_ne_true hp
    rw [if_neg hcond]
    simp [getHyp]

/-- A relation function that raises on every input, in both modes. -/
def raiseFn : RelFn (Option Int) :=
  ⟨fun _ _ => none, fun _ => none⟩

/-- Configuration for the C4 witness: the always-raising function alone. -/
def cfgR : Config (Option Int) :=
  { functions := [raiseFn], constants := [], minLhs := 1, maxLhs := 1,
    tolerance := 5, maxDepth := 1, parentKey := none }

def keyR : HypKey (Option Int) := ⟨0, [0], RhsDesc.feature 0⟩

def rowR : List (Option Int) := [some 1]

/-- Witness for C4 at the always-raising function on a concrete row. -/
theorem c4_exceptions_never_escape_witness :
    (getVals rowR keyR.lhs = some [some 1] ∧
     cfgR.functions.get? keyR.fnIndex = some raiseFn ∧
     raiseFn.infer [some 1] = none) ∧
    (hypPasses cfgR.functions rowR 0 keyR = false ∧
     passesFC cfgR.functions rowR keyR = false ∧
     predictFuel (0 + 1) (.mk cfgR [(keyR, 0, none)]) rowR = [] ∧
     getHyp keyR (trainCore (.mk cfgR [(keyR, 0, none)]) rowR 0).hyps =
       (if ((0 + 1 : Nat) : Int) ≤ cfgR.tolerance then some (0 + 1, none)
        else none)) :=
  ⟨⟨rfl, rfl, rfl⟩,
   c4_exceptions_never_escape cfgR rowR 0 keyR 0 none [some 1] raiseFn 0
     rfl rfl (fun _ => rfl) rfl⟩

end CombKnow


